import Mathlib

/-!
Verification of the `ldir` snapshot builder and alignment registry.

The development shallowly embeds the two core subsystems of the repository:

* `src/modules/GroupedString.py` — the class-level alignment registry
  (`GroupedString.__instances` / `GroupedString.__max_length`) together with the
  instance operations (`__init__`, the `text` setter, `__del__`,
  `update_max_length_for_group`, `text_padding_length`,
  `text_padding_length_for_group`, `ljust_text`, `rjust_text`, `center_text`);
* `src/modules/fs_elements.py` — `Config.set_config`,
  `FileSystemElement.__init__` / the `parent` setter, and
  `DirectoryElement._load_content` (the recursive directory walk), with the host
  filesystem modelled as a finite tree whose directories carry the outcome of
  `os.scandir` (listing, `PermissionError`, or another `OSError`).

Machine strings are Lean `String`s; Python's `str.ljust` / `str.rjust` /
`str.center` are embedded as `pyLjust` / `pyRjust` / `pyCenter` over an `Int`
width (the registry's `-1` sentinel makes widths signed).
-/

/-- spaces n is the string of n space characters (Python's default fill character). -/
def spaces (n : Nat) : String := String.mk (List.replicate n ' ')

/-- pyLjust models Python's `str.ljust(width)`: when `width <= len(s)` the string is
returned unchanged, otherwise it is padded on the right with spaces. -/
def pyLjust (t : String) (w : Int) : String :=
  if w ≤ (t.length : Int) then t else t ++ spaces (w - (t.length : Int)).toNat

/-- pyRjust models Python's `str.rjust(width)`: when `width <= len(s)` the string is
returned unchanged, otherwise it is padded on the left with spaces. -/
def pyRjust (t : String) (w : Int) : String :=
  if w ≤ (t.length : Int) then t else spaces (w - (t.length : Int)).toNat ++ t

/-- pyCenter models Python's `str.center(width)` (CPython: `marg = width - len`,
`left = marg / 2 + (marg & width & 1)`, pad `left` spaces on the left and the rest
on the right); when `width <= len(s)` the string is returned unchanged. -/
def pyCenter (t : String) (w : Int) : String :=
  if w ≤ (t.length : Int) then t
  else
    let marg : Nat := (w - (t.length : Int)).toNat
    let left : Nat := marg / 2 + (if marg % 2 = 1 ∧ w % 2 = 1 then 1 else 0)
    spaces left ++ t ++ spaces (marg - left)

/-- Member models one live `GroupedString` instance: a synthetic identity standing
for Python object identity, the instance's group, and its current `__text`. -/
structure Member where
  id : Nat
  group : String
  text : String
deriving DecidableEq, Repr

/-- GSState models the class-level mutable state of `GroupedString`: `members` is the
union of the per-group `__instances` WeakSets of live instances, and `maxLen` is the
`__max_length` dictionary (an association list, keys unique in reachable states). -/
structure GSState where
  members : List Member
  maxLen : List (String × Nat)
deriving DecidableEq, Repr

/-- lookupGroup models `dict.get` on the `__max_length` dictionary (without default). -/
def lookupGroup : List (String × Nat) → String → Option Nat
  | [], _ => none
  | (k, v) :: rest, g => if k = g then some v else lookupGroup rest g

/-- setGroup models `dict[key] = value` on the `__max_length` dictionary. -/
def setGroup : List (String × Nat) → String → Nat → List (String × Nat)
  | [], g, v => [(g, v)]
  | (k, w) :: rest, g, v => if k = g then (g, v) :: rest else (k, w) :: setGroup rest g v

/-- removeGroup models `del dict[key]` on the `__max_length` dictionary. -/
def removeGroup : List (String × Nat) → String → List (String × Nat)
  | [], _ => []
  | (k, w) :: rest, g => if k = g then removeGroup rest g else (k, w) :: removeGroup rest g

/-- membersOf ms g is the live-instance set `__instances[g]` (the members of `ms`
whose group is `g`, in list order; Python iterates a WeakSet, and every use below is
order-insensitive). -/
def membersOf : List Member → String → List Member
  | [], _ => []
  | m :: ms, g => if m.group = g then m :: membersOf ms g else membersOf ms g

/-- maxTextLen models `max((len(x.text) for x in instances), default=0)`. -/
def maxTextLen : List Member → Nat
  | [] => 0
  | m :: ms => max m.text.length (maxTextLen ms)

/-- update_max_length_for_group models `GroupedString.update_max_length_for_group`:
it recomputes `__max_length[group]` as the maximum text length over the group's
live instances.  When the group is empty the source deletes the group's entries and
then raises `KeyError` from the re-read of `__instances[group]`; that branch is
modelled as `none` (every call site in the repository reaches it only with a
non-empty group). -/
def update_max_length_for_group (s : GSState) (g : String) : Option GSState :=
  if membersOf s.members g = [] then none
  else some { s with maxLen := setGroup s.maxLen g (maxTextLen (membersOf s.members g)) }

/-- updText id t is the effect of the assignment `self.__text = text` on one member
of the class-level member list (only the object with identity `id` changes). -/
def updText (id : Nat) (t : String) (m : Member) : Member :=
  if m.id = id then { m with text := t } else m

/-- text_setter models the `GroupedString.text` property setter: store the new text
on the instance, then call `update_max_length_for_group` on the instance's group.
The instance must be live (`find?` locates it by identity). -/
def text_setter (s : GSState) (id : Nat) (t : String) : Option GSState :=
  match s.members.find? (fun m => m.id == id) with
  | none => none
  | some m =>
      update_max_length_for_group { s with members := s.members.map (updText id t) } m.group

/-- GroupedString_init models `GroupedString.__init__(text, group)`: the fresh
instance (with `__text = ""`) is added to `__instances[group]`, then the `text`
setter runs with the constructor argument. -/
def GroupedString_init (s : GSState) (id : Nat) (g t : String) : Option GSState :=
  text_setter { s with members := ⟨id, g, ""⟩ :: s.members } id t

/-- GroupedString_del models `GroupedString.__del__`: discard the instance from its
group's set; if the set became empty delete both the set and the group's stored
maximum, otherwise recompute the group's maximum. -/
def GroupedString_del (s : GSState) (id : Nat) : Option GSState :=
  match s.members.find? (fun m => m.id == id) with
  | none => none
  | some m =>
      let s1 : GSState := { s with members := s.members.filter (fun x => x.id != id) }
      if membersOf s1.members m.group = [] then
        some { s1 with maxLen := removeGroup s1.maxLen m.group }
      else
        update_max_length_for_group s1 m.group

/-- text_padding_length_for_group models
`GroupedString.text_padding_length_for_group`: `__max_length.get(group, -1)`. -/
def text_padding_length_for_group (s : GSState) (g : String) : Int :=
  ((lookupGroup s.maxLen g).map (Int.ofNat)).getD (-1)

/-- text_padding_length models the `GroupedString.text_padding_length` property:
`__max_length.get(self.group, -1)` for a live instance. -/
def text_padding_length (s : GSState) (m : Member) : Int :=
  text_padding_length_for_group s m.group

/-- ljust_text models the `GroupedString.ljust_text` property:
`self.text.ljust(self.text_padding_length)`. -/
def ljust_text (s : GSState) (m : Member) : String :=
  pyLjust m.text (text_padding_length s m)

/-- rjust_text models the `GroupedString.rjust_text` property:
`self.text.rjust(self.text_padding_length)`. -/
def rjust_text (s : GSState) (m : Member) : String :=
  pyRjust m.text (text_padding_length s m)

/-- center_text models the `GroupedString.center_text` property:
`self.text.center(self.text_padding_length)`. -/
def center_text (s : GSState) (m : Member) : String :=
  pyCenter m.text (text_padding_length s m)

/-- Reachable s holds when the class-level state `s` arises from the empty initial
state by a sequence of instance constructions (with fresh object identities), text
mutations of live instances, and instance deletions — the only operations the
repository performs on the registry. -/
inductive Reachable : GSState → Prop where
  | init : Reachable ⟨[], []⟩
  | new (s s' : GSState) (id : Nat) (g t : String) :
      Reachable s → (∀ m ∈ s.members, m.id ≠ id) →
      GroupedString_init s id g t = some s' → Reachable s'
  | set (s s' : GSState) (id : Nat) (t : String) :
      Reachable s → text_setter s id t = some s' → Reachable s'
  | del (s s' : GSState) (id : Nat) :
      Reachable s → GroupedString_del s id = some s' → Reachable s'

/-- gsInv is the registry invariant: object identities are distinct, and a group has
a stored maximum exactly when it has live members, in which case the stored value is
the maximum text length over those members. -/
def gsInv (s : GSState) : Prop :=
  (s.members.map Member.id).Nodup ∧
  ∀ g : String, lookupGroup s.maxLen g =
    if membersOf s.members g = [] then none
    else some (maxTextLen (membersOf s.members g))

/-- isHiddenName models `entry.name.startswith(".")` from
`FileSystemElement.__init__`: the name's first character is `.` (for the one-character
pattern `"."`, Python's `startswith` is exactly this head test). -/
def isHiddenName (n : String) : Bool :=
  match n.data with
  | [] => false
  | c :: _ => c = '.'

/-- FileSystemElementState holds the fields `FileSystemElement.__init__` sets on an
element: the entry's name, the nesting level, the (initially absent) parent — kept
here as the parent's path — and the derived hidden flag. -/
structure FileSystemElementState where
  entryName : String
  level : Nat
  parent : Option String
  isHidden : Bool
deriving DecidableEq, Repr

/-- FileSystemElement_init models `FileSystemElement.__init__(entry, level)`:
`__parent` starts as `None` and `_is_hidden` is derived from the name. -/
def FileSystemElement_init (name : String) (level : Nat) : FileSystemElementState :=
  { entryName := name, level := level, parent := none, isHidden := isHiddenName name }

/-- parent_setter models the `FileSystemElement.parent` property setter: assign the
parent only when none has been assigned yet; otherwise only a debug line is logged
and the element is left untouched. -/
def parent_setter (e : FileSystemElementState) (p : String) : FileSystemElementState :=
  match e.parent with
  | none => { e with parent := some p }
  | some _ => e

/-- Config mirrors the `Config` class of `fs_elements.py`: the three traversal
flags, their constructor defaults, and the `_config_is_set` freeze marker. -/
structure Config where
  recursive : Bool
  subdirectories : Bool
  hidden : Bool
  configIsSet : Bool
deriving DecidableEq, Repr

/-- Config.new models `Config.__init__`: recursive=False, subdirectories=True,
hidden=False, not yet frozen. -/
def Config.new : Config :=
  { recursive := false, subdirectories := true, hidden := false, configIsSet := false }

/-- Config.set_config models `Config.set_config(recursive, subdirectories, hidden)`:
a no-op once frozen or when any argument is `None`; otherwise it stores
`recursive`, stores `True` for `subdirectories` whenever `recursive` is true (else
the passed value), stores `hidden`, and freezes the configuration. -/
def Config.set_config (c : Config) (recursive subdirectories hidden : Option Bool) : Config :=
  if c.configIsSet then c
  else
    match recursive, subdirectories, hidden with
    | some rv, some sv, some hv =>
        { recursive := rv
          subdirectories := if rv then true else sv
          hidden := hv
          configIsSet := true }
    | _, _, _ => c

/-- ScanErr is the outcome of `os.scandir` on one directory of the modelled
filesystem: a successful listing, a `PermissionError`, or another `OSError`. -/
inductive ScanErr where
  | scanOk | permission | osError
deriving DecidableEq, Repr

/-- FSTree is a point-in-time model of the host filesystem under one directory:
files carry their name; directories carry their name, the outcome `os.scandir`
would produce for them, and their entries in enumeration order. -/
inductive FSTree where
  | file (name : String) : FSTree
  | dir (name : String) (err : ScanErr) (children : List FSTree) : FSTree
deriving Repr

/-- FileNode is the observable state of a constructed `FileElement`: its name and
nesting level. -/
structure FileNode where
  name : String
  level : Nat
deriving DecidableEq, Repr

/-- DirNode is the observable state of a populated `DirectoryElement`: name,
nesting level, `_content_files` and `_content_directories` (in their final order). -/
inductive DirNode where
  | mk (name : String) (level : Nat) (files : List FileNode) (dirs : List DirNode) : DirNode
deriving Repr

/-- DirNode.name projects the directory element's name. -/
def DirNode.name : DirNode → String
  | .mk n _ _ _ => n

/-- DirNode.level projects the directory element's nesting level. -/
def DirNode.level : DirNode → Nat
  | .mk _ l _ _ => l

/-- DirNode.files projects `_content_files`. -/
def DirNode.files : DirNode → List FileNode
  | .mk _ _ f _ => f

/-- DirNode.dirs projects `_content_directories`. -/
def DirNode.dirs : DirNode → List DirNode
  | .mk _ _ _ d => d

/-- processEntries is the entry loop of `DirectoryElement._load_content` for a
directory at level `lvl`, run over the scandir entries of that directory.  Per
entry: entries are considered only while `config.recursive or self.level < 1`;
directory entries are (when `config.subdirectories`) recursively constructed first
— their own `_load_content` catches a `PermissionError` of their own `scandir`,
while any other `OSError` escapes every `except` clause and aborts the whole walk
(modelled by `Except.error`) — and appended to `_content_directories` unless hidden
and excluded; other entries become `FileElement`s appended to `_content_files`
unless hidden and excluded. -/
def processEntries (cfg : Config) (lvl : Nat) : List FSTree → Except Unit (List DirNode × List FileNode)
  | [] => .ok ([], [])
  | FSTree.file n :: rest =>
      if cfg.recursive || decide (lvl < 1) then
        match processEntries cfg lvl rest with
        | .error e => .error e
        | .ok (ds, fs) =>
            if cfg.hidden || !isHiddenName n then .ok (ds, ⟨n, lvl + 1⟩ :: fs)
            else .ok (ds, fs)
      else processEntries cfg lvl rest
  | FSTree.dir n err ch :: rest =>
      if cfg.recursive || decide (lvl < 1) then
        if cfg.subdirectories then
          match err with
          | .osError => .error ()
          | .permission =>
              match processEntries cfg lvl rest with
              | .error e => .error e
              | .ok (ds, fs) =>
                  if cfg.hidden || !isHiddenName n then
                    .ok (DirNode.mk n (lvl + 1) [] [] :: ds, fs)
                  else .ok (ds, fs)
          | .scanOk =>
              match processEntries cfg (lvl + 1) ch with
              | .error e => .error e
              | .ok (cds, cfs) =>
                  match processEntries cfg lvl rest with
                  | .error e => .error e
                  | .ok (ds, fs) =>
                      if cfg.hidden || !isHiddenName n then
                        .ok (DirNode.mk n (lvl + 1) cfs cds :: ds, fs)
                      else .ok (ds, fs)
        else processEntries cfg lvl rest
      else processEntries cfg lvl rest

/-- loadContent models `DirectoryElement._load_content` for one directory at level
`lvl`: a `PermissionError` from its `scandir` is caught, leaving both content lists
empty; another `OSError` escapes; a successful listing runs the entry loop. -/
def loadContent (cfg : Config) (lvl : Nat) (name : String) (err : ScanErr)
    (children : List FSTree) : Except Unit DirNode :=
  match err with
  | .permission => .ok (DirNode.mk name lvl [] [])
  | .osError => .error ()
  | .scanOk =>
      match processEntries cfg lvl children with
      | .error e => .error e
      | .ok (ds, fs) => .ok (DirNode.mk name lvl fs ds)

/-- rootConfig models the configuration built by `RootDirectoryElement.__init__`:
`Config().set_config(recursive, subdirectories, hidden)` with all three arguments
present. -/
def rootConfig (recursive subdirectories hidden : Bool) : Config :=
  Config.new.set_config (some recursive) (some subdirectories) (some hidden)

/-- buildRoot models `RootDirectoryElement.__init__` on a root directory whose
scandir outcome is `err` and whose entries are `children`: the frozen configuration
is installed and `_load_content` runs at level 0. -/
def buildRoot (recursive subdirectories hidden : Bool) (name : String) (err : ScanErr)
    (children : List FSTree) : Except Unit DirNode :=
  loadContent (rootConfig recursive subdirectories hidden) 0 name err children

/-- visibleFileNames lists, in enumeration order, the names of the non-directory
entries of one listing that survive the hidden filter — what the walk is expected
to place in `_content_files` at a level it actually scans. -/
def visibleFileNames (cfg : Config) : List FSTree → List String
  | [] => []
  | FSTree.file n :: rest =>
      if cfg.hidden || !isHiddenName n then n :: visibleFileNames cfg rest
      else visibleFileNames cfg rest
  | FSTree.dir _ _ _ :: rest => visibleFileNames cfg rest

/-- visibleDirNames lists, in enumeration order, the names of the directory entries
of one listing that survive the subdirectories flag and the hidden filter — what
the walk is expected to place in `_content_directories` at a level it actually
scans. -/
def visibleDirNames (cfg : Config) : List FSTree → List String
  | [] => []
  | FSTree.file _ :: rest => visibleDirNames cfg rest
  | FSTree.dir n _ _ :: rest =>
      if cfg.subdirectories && (cfg.hidden || !isHiddenName n) then
        n :: visibleDirNames cfg rest
      else visibleDirNames cfg rest

/-- noHiddenNodes checks, recursively, that no directory element of the list and no
file or directory element anywhere below one of them has a name starting with a
dot. -/
def noHiddenNodes : List DirNode → Bool
  | [] => true
  | DirNode.mk n _ files dirs :: rest =>
      !isHiddenName n && files.all (fun f => !isHiddenName f.name) &&
        noHiddenNodes dirs && noHiddenNodes rest

/-- noOsErr checks that no directory anywhere in the modelled filesystem would
report a non-permission `OSError` from its `scandir`. -/
def noOsErr : List FSTree → Bool
  | [] => true
  | FSTree.file _ :: rest => noOsErr rest
  | FSTree.dir _ err ch :: rest =>
      (match err with | ScanErr.osError => false | _ => true) && noOsErr ch && noOsErr rest

/-- length_spaces computes the length of a run of spaces. -/
theorem length_spaces (n : Nat) : (spaces n).length = n := by
  simp [spaces, String.length]

/-- length_pyLjust shows left-justification pads the string to the requested width
and never shortens it. -/
theorem length_pyLjust (t : String) (w : Int) : (pyLjust t w).length = max t.length w.toNat := by
  unfold pyLjust
  split
  · omega
  · simp only [String.length_append, length_spaces]
    omega

/-- length_pyRjust shows right-justification pads the string to the requested width
and never shortens it. -/
theorem length_pyRjust (t : String) (w : Int) : (pyRjust t w).length = max t.length w.toNat := by
  unfold pyRjust
  split
  · omega
  · simp only [String.length_append, length_spaces]
    omega

/-- length_pyCenter shows centering pads the string to the requested width and
never shortens it. -/
theorem length_pyCenter (t : String) (w : Int) : (pyCenter t w).length = max t.length w.toNat := by
  unfold pyCenter
  split
  · omega
  · simp only [String.length_append, length_spaces]
    split
    · omega
    · omega

/-- pyLjust_of_lt shows a width below the text length leaves the text unchanged. -/
theorem pyLjust_of_lt (t : String) (w : Int) (h : w < (t.length : Int)) : pyLjust t w = t := by
  unfold pyLjust
  exact if_pos (le_of_lt h)

/-- pyRjust_of_lt shows a width below the text length leaves the text unchanged. -/
theorem pyRjust_of_lt (t : String) (w : Int) (h : w < (t.length : Int)) : pyRjust t w = t := by
  unfold pyRjust
  exact if_pos (le_of_lt h)

/-- pyCenter_of_lt shows a width below the text length leaves the text unchanged. -/
theorem pyCenter_of_lt (t : String) (w : Int) (h : w < (t.length : Int)) : pyCenter t w = t := by
  unfold pyCenter
  exact if_pos (le_of_lt h)

/-- lookupGroup_setGroup relates dictionary lookup and dictionary store. -/
theorem lookupGroup_setGroup (m : List (String × Nat)) (g g' : String) (v : Nat) :
    lookupGroup (setGroup m g v) g' = if g' = g then some v else lookupGroup m g' := by
  induction m with
  | nil =>
      simp only [setGroup, lookupGroup]
      by_cases h : g' = g
      · subst h
        simp
      · rw [if_neg fun hh => h hh.symm, if_neg h]
  | cons kv rest ih =>
      obtain ⟨k, w⟩ := kv
      simp only [setGroup]
      by_cases hk : k = g
      · subst hk
        simp only [if_pos rfl, lookupGroup]
        by_cases h : g' = k
        · subst h
          simp
        · rw [if_neg fun hh => h hh.symm, if_neg h, if_neg fun hh => h hh.symm]
      · rw [if_neg hk]
        simp only [lookupGroup, ih]
        by_cases h2 : k = g'
        · subst h2
          rw [if_pos rfl, if_neg hk, if_pos rfl]
        · rw [if_neg h2]
          by_cases h3 : g' = g
          · rw [if_pos h3, if_pos h3]
          · rw [if_neg h3, if_neg h3, if_neg h2]

/-- lookupGroup_removeGroup relates dictionary lookup and dictionary deletion. -/
theorem lookupGroup_removeGroup (m : List (String × Nat)) (g g' : String) :
    lookupGroup (removeGroup m g) g' = if g' = g then none else lookupGroup m g' := by
  induction m with
  | nil => simp [removeGroup, lookupGroup]
  | cons kv rest ih =>
      obtain ⟨k, w⟩ := kv
      simp only [removeGroup]
      by_cases hk : k = g
      · subst hk
        rw [if_pos rfl, ih]
        simp only [lookupGroup]
        by_cases h : g' = k
        · subst h
          rw [if_pos rfl, if_pos rfl]
        · rw [if_neg h, if_neg h, if_neg fun hh => h hh.symm]
      · rw [if_neg hk]
        simp only [lookupGroup, ih]
        by_cases h2 : k = g'
        · subst h2
          rw [if_pos rfl, if_neg hk, if_pos rfl]
        · rw [if_neg h2]
          by_cases h3 : g' = g
          · rw [if_pos h3, if_pos h3]
          · rw [if_neg h3, if_neg h3, if_neg h2]

/-- mem_membersOf characterises membership in one group's live set. -/
theorem mem_membersOf (ms : List Member) (g : String) (x : Member) :
    x ∈ membersOf ms g ↔ x ∈ ms ∧ x.group = g := by
  induction ms with
  | nil => simp [membersOf]
  | cons m rest ih =>
      by_cases h : m.group = g
      · simp only [membersOf, if_pos h, List.mem_cons, ih]
        constructor
        · rintro (rfl | ⟨hx, hg⟩)
          · exact ⟨Or.inl rfl, h⟩
          · exact ⟨Or.inr hx, hg⟩
        · rintro ⟨rfl | hx, hg⟩
          · exact Or.inl rfl
          · exact Or.inr ⟨hx, hg⟩
      · simp only [membersOf, if_neg h, List.mem_cons, ih]
        constructor
        · rintro ⟨hx, hg⟩
          exact ⟨Or.inr hx, hg⟩
        · rintro ⟨rfl | hx, hg⟩
          · exact absurd hg h
          · exact ⟨hx, hg⟩

/-- maxTextLen_ge bounds every member's text length by the group maximum. -/
theorem maxTextLen_ge (ms : List Member) (x : Member) (hx : x ∈ ms) :
    x.text.length ≤ maxTextLen ms := by
  induction ms with
  | nil => cases hx
  | cons m rest ih =>
      rcases List.mem_cons.mp hx with rfl | hx'
      · simp [maxTextLen]
      · simp only [maxTextLen]
        exact le_max_of_le_right (ih hx')

/-- maxTextLen_cons unfolds the group maximum over a freshly extended set. -/
theorem maxTextLen_cons (m : Member) (ms : List Member) :
    maxTextLen (m :: ms) = max m.text.length (maxTextLen ms) := rfl

/-- updText_group shows a text update never changes a member's group. -/
theorem updText_group (id : Nat) (t : String) (m : Member) : (updText id t m).group = m.group := by
  unfold updText
  split <;> rfl

/-- updText_id shows a text update never changes a member's identity. -/
theorem updText_id (id : Nat) (t : String) (m : Member) : (updText id t m).id = m.id := by
  unfold updText
  split <;> rfl

/-- membersOf_map_updText commutes a text update with the group filter. -/
theorem membersOf_map_updText (ms : List Member) (id : Nat) (t : String) (g : String) :
    membersOf (ms.map (updText id t)) g = (membersOf ms g).map (updText id t) := by
  induction ms with
  | nil => simp [membersOf]
  | cons m rest ih =>
      by_cases h : m.group = g
      · simp [membersOf, updText_group, h, ih]
      · simp [membersOf, updText_group, h, ih]

/-- map_updText_of_not_mem shows updating an identity absent from a list is a
no-op. -/
theorem map_updText_of_not_mem (ms : List Member) (id : Nat) (t : String)
    (h : ∀ x ∈ ms, x.id ≠ id) : ms.map (updText id t) = ms := by
  induction ms with
  | nil => rfl
  | cons m rest ih =>
      have hm : m.id ≠ id := h m (List.mem_cons_self m rest)
      simp only [List.map_cons, updText, if_neg hm]
      rw [ih fun x hx => h x (List.mem_cons_of_mem m hx)]

/-- membersOf_filter_ne commutes removal of one identity with the group filter. -/
theorem membersOf_filter_ne (ms : List Member) (id : Nat) (g : String) :
    membersOf (ms.filter (fun x => x.id != id)) g
      = (membersOf ms g).filter (fun x => x.id != id) := by
  induction ms with
  | nil => simp [membersOf]
  | cons m rest ih =>
      by_cases hid : m.id = id
      · by_cases h : m.group = g <;>
          simp [membersOf, List.filter_cons, hid, h, ih]
      · by_cases h : m.group = g <;>
          simp [membersOf, List.filter_cons, hid, h, ih]

/-- filter_ne_of_not_mem shows removing an identity absent from a list is a
no-op. -/
theorem filter_ne_of_not_mem (ms : List Member) (id : Nat)
    (h : ∀ x ∈ ms, x.id ≠ id) : ms.filter (fun x => x.id != id) = ms := by
  induction ms with
  | nil => rfl
  | cons m rest ih =>
      have hm : m.id ≠ id := h m (List.mem_cons_self m rest)
      have hb : (m.id != id) = true := bne_iff_ne.mpr hm
      simp only [List.filter_cons, hb, if_true]
      rw [ih fun x hx => h x (List.mem_cons_of_mem m hx)]

/-- membersOf_cons unfolds the group filter over a cons cell. -/
theorem membersOf_cons (m : Member) (ms : List Member) (g : String) :
    membersOf (m :: ms) g = if m.group = g then m :: membersOf ms g else membersOf ms g := rfl

/-- find?_id_mem extracts membership and the identity equation from a successful
lookup of a live instance. -/
theorem find?_id_mem (ms : List Member) (id : Nat) (m : Member)
    (h : ms.find? (fun x => x.id == id) = some m) : m ∈ ms ∧ m.id = id := by
  refine ⟨List.mem_of_find?_eq_some h, ?_⟩
  have := List.find?_some h
  simpa using this

/-- eq_of_id_of_nodup recovers object identity: under distinct identities, two
members of the class-level list with the same identity are the same member. -/
theorem eq_of_id_of_nodup (ms : List Member) (hnd : (ms.map Member.id).Nodup)
    (x y : Member) (hx : x ∈ ms) (hy : y ∈ ms) (h : x.id = y.id) : x = y :=
  List.inj_on_of_nodup_map hnd hx hy h

/-- membersOf_cons_self unfolds the live set of the group a new head belongs to. -/
theorem membersOf_cons_self (id : Nat) (g t : String) (ms : List Member) :
    membersOf (⟨id, g, t⟩ :: ms) g = ⟨id, g, t⟩ :: membersOf ms g := by
  show (if g = g then _ else _) = _
  rw [if_pos rfl]

/-- membersOf_cons_other shows adding a member leaves other groups' live sets
unchanged. -/
theorem membersOf_cons_other (id : Nat) (g t : String) (ms : List Member) (g' : String)
    (hg : g' ≠ g) : membersOf (⟨id, g, t⟩ :: ms) g' = membersOf ms g' := by
  show (if g = g' then _ else _) = _
  rw [if_neg fun hh => hg hh.symm]

/-- GroupedString_init_eq computes the effect of constructing a fresh instance:
the member list gains the new instance and the group's stored maximum becomes the
maximum of the new text's length and the previous members' maximum. -/
theorem GroupedString_init_eq (s : GSState) (id : Nat) (g t : String)
    (hfresh : ∀ m ∈ s.members, m.id ≠ id) :
    GroupedString_init s id g t =
      some ⟨⟨id, g, t⟩ :: s.members,
        setGroup s.maxLen g (max t.length (maxTextLen (membersOf s.members g)))⟩ := by
  have h1 : (⟨id, g, ""⟩ :: s.members : List Member).find? (fun x => x.id == id)
      = some ⟨id, g, ""⟩ := List.find?_cons_of_pos _ (by simp)
  have hmap : (⟨id, g, ""⟩ :: s.members : List Member).map (updText id t)
      = ⟨id, g, t⟩ :: s.members := by
    rw [List.map_cons, map_updText_of_not_mem s.members id t hfresh]
    show (if id = id then _ else _) :: s.members = _
    rw [if_pos rfl]
  simp only [GroupedString_init, text_setter, h1, hmap]
  simp only [update_max_length_for_group, membersOf_cons_self]
  rw [if_neg (List.cons_ne_nil _ _), maxTextLen_cons]

/-- gsInv_init shows the registry invariant is preserved by construction of a fresh
instance. -/
theorem gsInv_init (s s' : GSState) (id : Nat) (g t : String) (hinv : gsInv s)
    (hfresh : ∀ m ∈ s.members, m.id ≠ id)
    (h : GroupedString_init s id g t = some s') : gsInv s' := by
  obtain ⟨hnd, hlk⟩ := hinv
  rw [GroupedString_init_eq s id g t hfresh] at h
  injection h with h
  subst h
  constructor
  · simp only [List.map_cons]
    refine List.nodup_cons.mpr ⟨?_, hnd⟩
    simp only [List.mem_map]
    rintro ⟨x, hx, hxid⟩
    exact hfresh x hx hxid
  · intro g'
    show lookupGroup (setGroup s.maxLen g _) g' = _
    rw [lookupGroup_setGroup]
    by_cases hg : g' = g
    · subst hg
      rw [if_pos rfl]
      show _ = if membersOf (⟨id, g', t⟩ :: s.members) g' = [] then none else _
      rw [membersOf_cons_self, if_neg (List.cons_ne_nil _ _), maxTextLen_cons]
    · rw [if_neg hg]
      show lookupGroup s.maxLen g'
          = if membersOf (⟨id, g, t⟩ :: s.members) g' = [] then none
            else some (maxTextLen (membersOf (⟨id, g, t⟩ :: s.members) g'))
      rw [membersOf_cons_other id g t s.members g' hg]
      exact hlk g'

/-- membersOf_map_updText_other shows a text update of a member leaves every other
group's live set untouched (object identities being distinct). -/
theorem membersOf_map_updText_other (ms : List Member) (hnd : (ms.map Member.id).Nodup)
    (id : Nat) (m : Member) (hm : m ∈ ms) (hmid : m.id = id) (t : String) (g' : String)
    (hg : g' ≠ m.group) :
    membersOf (ms.map (updText id t)) g' = membersOf ms g' := by
  rw [membersOf_map_updText]
  apply map_updText_of_not_mem
  intro x hx hxid
  have hx' := (mem_membersOf ms g' x).mp hx
  have hxm : x = m := eq_of_id_of_nodup ms hnd x m hx'.1 hm (by rw [hxid, hmid])
  exact hg (by rw [← hx'.2, hxm])

/-- gsInv_set shows the registry invariant is preserved by the `text` setter. -/
theorem gsInv_set (s s' : GSState) (id : Nat) (t : String) (hinv : gsInv s)
    (h : text_setter s id t = some s') : gsInv s' := by
  obtain ⟨hnd, hlk⟩ := hinv
  cases hfind : s.members.find? (fun x => x.id == id) with
  | none =>
      simp only [text_setter, hfind] at h
      cases h
  | some m =>
      simp only [text_setter, hfind, update_max_length_for_group] at h
      obtain ⟨hm_mem, hm_id⟩ := find?_id_mem s.members id m hfind
      split at h
      · cases h
      · rename_i hne
        injection h with h
        subst h
        have hids : ((s.members.map (updText id t)).map Member.id) = s.members.map Member.id := by
          rw [List.map_map]
          exact List.map_congr_left (fun a _ => updText_id id t a)
        constructor
        · show ((s.members.map (updText id t)).map Member.id).Nodup
          rw [hids]
          exact hnd
        · intro g'
          show lookupGroup (setGroup s.maxLen m.group _) g' = _
          rw [lookupGroup_setGroup]
          by_cases hg : g' = m.group
          · subst hg
            rw [if_pos rfl]
            show _ = if membersOf (s.members.map (updText id t)) m.group = [] then none else _
            rw [if_neg hne]
          · rw [if_neg hg]
            show lookupGroup s.maxLen g'
                = if membersOf (s.members.map (updText id t)) g' = [] then none
                  else some (maxTextLen (membersOf (s.members.map (updText id t)) g'))
            rw [membersOf_map_updText_other s.members hnd id m hm_mem hm_id t g' hg]
            exact hlk g'

/-- membersOf_filter_other shows deleting a member leaves every other group's live
set untouched (object identities being distinct). -/
theorem membersOf_filter_other (ms : List Member) (hnd : (ms.map Member.id).Nodup)
    (id : Nat) (m : Member) (hm : m ∈ ms) (hmid : m.id = id) (g' : String)
    (hg : g' ≠ m.group) :
    membersOf (ms.filter (fun x => x.id != id)) g' = membersOf ms g' := by
  rw [membersOf_filter_ne]
  apply filter_ne_of_not_mem
  intro x hx hxid
  have hx' := (mem_membersOf ms g' x).mp hx
  have hxm : x = m := eq_of_id_of_nodup ms hnd x m hx'.1 hm (by rw [hxid, hmid])
  exact hg (by rw [← hx'.2, hxm])

/-- gsInv_del shows the registry invariant is preserved by instance deletion. -/
theorem gsInv_del (s s' : GSState) (id : Nat) (hinv : gsInv s)
    (h : GroupedString_del s id = some s') : gsInv s' := by
  obtain ⟨hnd, hlk⟩ := hinv
  cases hfind : s.members.find? (fun x => x.id == id) with
  | none =>
      simp only [GroupedString_del, hfind] at h
      cases h
  | some m =>
      simp only [GroupedString_del, hfind] at h
      obtain ⟨hm_mem, hm_id⟩ := find?_id_mem s.members id m hfind
      have hnd' : ((s.members.filter (fun x => x.id != id)).map Member.id).Nodup :=
        List.Nodup.sublist (List.Sublist.map Member.id (List.filter_sublist s.members)) hnd
      split at h
      · rename_i hemp
        injection h with h
        subst h
        refine ⟨hnd', ?_⟩
        intro g'
        show lookupGroup (removeGroup s.maxLen m.group) g' = _
        rw [lookupGroup_removeGroup]
        by_cases hg : g' = m.group
        · subst hg
          rw [if_pos rfl]
          show _ = if membersOf (s.members.filter (fun x => x.id != id)) m.group = [] then none else _
          rw [if_pos hemp]
        · rw [if_neg hg]
          show lookupGroup s.maxLen g'
              = if membersOf (s.members.filter (fun x => x.id != id)) g' = [] then none
                else some (maxTextLen (membersOf (s.members.filter (fun x => x.id != id)) g'))
          rw [membersOf_filter_other s.members hnd id m hm_mem hm_id g' hg]
          exact hlk g'
      · rename_i hemp
        simp only [update_max_length_for_group] at h
        split at h
        · cases h
        · rename_i hne
          injection h with h
          subst h
          refine ⟨hnd', ?_⟩
          intro g'
          show lookupGroup (setGroup s.maxLen m.group _) g' = _
          rw [lookupGroup_setGroup]
          by_cases hg : g' = m.group
          · subst hg
            rw [if_pos rfl]
            show _ = if membersOf (s.members.filter (fun x => x.id != id)) m.group = [] then none else _
            rw [if_neg hne]
          · rw [if_neg hg]
            show lookupGroup s.maxLen g'
                = if membersOf (s.members.filter (fun x => x.id != id)) g' = [] then none
                  else some (maxTextLen (membersOf (s.members.filter (fun x => x.id != id)) g'))
            rw [membersOf_filter_other s.members hnd id m hm_mem hm_id g' hg]
            exact hlk g'

/-- reachable_inv shows the registry invariant holds in every reachable class-level
state. -/
theorem reachable_inv (s : GSState) (hs : Reachable s) : gsInv s := by
  induction hs with
  | init =>
      refine ⟨by simp, ?_⟩
      intro g
      simp [membersOf, lookupGroup]
  | new s s' id g t hr hfresh h ih => exact gsInv_init s s' id g t ih hfresh h
  | set s s' id t hr h ih => exact gsInv_set s s' id t ih h
  | del s s' id hr h ih => exact gsInv_del s s' id ih h

/-- tpl_unfold restates the padding-width query as a dictionary lookup with the
`-1` default. -/
theorem tpl_unfold (s : GSState) (g : String) :
    text_padding_length_for_group s g = ((lookupGroup s.maxLen g).map Int.ofNat).getD (-1) := rfl

/-- C1: for every group and any two tracked-string instances of that group in a
reachable registry state, the left-padded outputs of the two instances have the
same length, and that common length is the group's registered maximum length. -/
theorem C1_shared_group_padding (s : GSState) (hs : Reachable s) (g : String)
    (m1 m2 : Member) (h1 : m1 ∈ s.members) (h2 : m2 ∈ s.members)
    (hg1 : m1.group = g) (hg2 : m2.group = g) :
    ∃ M : Nat, lookupGroup s.maxLen g = some M ∧
      (ljust_text s m1).length = M ∧ (ljust_text s m2).length = M := by
  obtain ⟨hnd, hlk⟩ := reachable_inv s hs
  have hm1 : m1 ∈ membersOf s.members g := (mem_membersOf _ _ _).mpr ⟨h1, hg1⟩
  have hm2 : m2 ∈ membersOf s.members g := (mem_membersOf _ _ _).mpr ⟨h2, hg2⟩
  have hne : membersOf s.members g ≠ [] := by
    intro hh
    rw [hh] at hm1
    cases hm1
  have hlkg := hlk g
  rw [if_neg hne] at hlkg
  refine ⟨maxTextLen (membersOf s.members g), hlkg, ?_, ?_⟩
  · show (pyLjust m1.text (text_padding_length s m1)).length = _
    rw [text_padding_length, hg1, tpl_unfold, hlkg, length_pyLjust]
    have hle := maxTextLen_ge (membersOf s.members g) m1 hm1
    simp only [Option.map_some', Option.getD_some]
    have htn : (Int.ofNat (maxTextLen (membersOf s.members g))).toNat
        = maxTextLen (membersOf s.members g) := rfl
    rw [htn]
    exact max_eq_right hle
  · show (pyLjust m2.text (text_padding_length s m2)).length = _
    rw [text_padding_length, hg2, tpl_unfold, hlkg, length_pyLjust]
    have hle := maxTextLen_ge (membersOf s.members g) m2 hm2
    simp only [Option.map_some', Option.getD_some]
    have htn : (Int.ofNat (maxTextLen (membersOf s.members g))).toNat
        = maxTextLen (membersOf s.members g) := rfl
    rw [htn]
    exact max_eq_right hle

/-- C1 witness: a concrete registry reached by constructing "ab" then "wxyz" in
group "g"; both members' left-padded outputs have length 4, the registered
maximum. -/
theorem C1_shared_group_padding_witness :
    ∃ M : Nat,
      lookupGroup (GSState.mk [⟨1, "g", "wxyz"⟩, ⟨0, "g", "ab"⟩] [("g", 4)]).maxLen "g"
        = some M ∧
      (ljust_text ⟨[⟨1, "g", "wxyz"⟩, ⟨0, "g", "ab"⟩], [("g", 4)]⟩ ⟨1, "g", "wxyz"⟩).length = M ∧
      (ljust_text ⟨[⟨1, "g", "wxyz"⟩, ⟨0, "g", "ab"⟩], [("g", 4)]⟩ ⟨0, "g", "ab"⟩).length = M := by
  have h1 : Reachable ⟨[⟨0, "g", "ab"⟩], [("g", 2)]⟩ :=
    Reachable.new _ _ 0 "g" "ab" Reachable.init (by simp) (by decide)
  have h2 : Reachable ⟨[⟨1, "g", "wxyz"⟩, ⟨0, "g", "ab"⟩], [("g", 4)]⟩ :=
    Reachable.new _ _ 1 "g" "wxyz" h1 (by decide) (by decide)
  exact C1_shared_group_padding _ h2 "g" ⟨1, "g", "wxyz"⟩ ⟨0, "g", "ab"⟩ (by decide)
    (by decide) rfl rfl

/-- C6 counterexample: constructing "aa" in group "g" stores maximum 2; mutating
the (still live) member's text to "a" recomputes the stored maximum down to 1 —
the registered maximum does decrease under text mutation while a member lives. -/
theorem C6_counterexample :
    GroupedString_init ⟨[], []⟩ 0 "g" "aa" = some ⟨[⟨0, "g", "aa"⟩], [("g", 2)]⟩ ∧
    text_setter ⟨[⟨0, "g", "aa"⟩], [("g", 2)]⟩ 0 "a" = some ⟨[⟨0, "g", "a"⟩], [("g", 1)]⟩ ∧
    (⟨[⟨0, "g", "a"⟩], [("g", 1)]⟩ : GSState).members ≠ [] ∧
    text_padding_length_for_group ⟨[⟨0, "g", "aa"⟩], [("g", 2)]⟩ "g" = 2 ∧
    text_padding_length_for_group ⟨[⟨0, "g", "a"⟩], [("g", 1)]⟩ "g" = 1 :=
  ⟨by decide, by decide, by decide, by decide, by decide⟩

/-- C6 (amended): in every reachable registry state the stored maximum of a group
with live members is exactly the maximum of those members' text lengths and is
absent once the group empties; registration of a new member never decreases any
group's padding width — but text mutation and release recompute the maximum, which
can decrease it (see the counterexample). -/
theorem C6_amended_max_recomputed (s : GSState) (hs : Reachable s) :
    (∀ g : String, lookupGroup s.maxLen g =
        if membersOf s.members g = [] then none
        else some (maxTextLen (membersOf s.members g))) ∧
    (∀ id : Nat, ∀ g t : String, ∀ s' : GSState,
        (∀ m ∈ s.members, m.id ≠ id) → GroupedString_init s id g t = some s' →
        ∀ g' : String,
          text_padding_length_for_group s g' ≤ text_padding_length_for_group s' g') := by
  refine ⟨(reachable_inv s hs).2, ?_⟩
  intro id g t s' hfresh h g'
  rw [GroupedString_init_eq s id g t hfresh] at h
  injection h with h
  subst h
  rw [tpl_unfold, tpl_unfold]
  show _ ≤ ((lookupGroup (setGroup s.maxLen g _) g').map Int.ofNat).getD (-1)
  rw [lookupGroup_setGroup]
  by_cases hg : g' = g
  · rw [hg, if_pos rfl]
    have hlk := (reachable_inv s hs).2 g
    by_cases hemp : membersOf s.members g = []
    · rw [if_pos hemp] at hlk
      rw [hlk]
      simp only [Option.map_none', Option.getD_none, Option.map_some', Option.getD_some]
      exact le_trans (by decide) (Int.ofNat_nonneg _)
    · rw [if_neg hemp] at hlk
      rw [hlk]
      simp only [Option.map_some', Option.getD_some]
      exact Int.ofNat_le.mpr (le_max_right _ _)
  · rw [if_neg hg]

/-- C6 amended witness: in the concrete reached state with one member "aa" in
group "g", the stored maximum is 2 (the member's length), and registering a
further member "wxyz" raises the padding width from 2 to 4. -/
theorem C6_amended_max_recomputed_witness :
    lookupGroup (GSState.mk [⟨0, "g", "ab"⟩] [("g", 2)]).maxLen "g"
      = (if membersOf (GSState.mk [⟨0, "g", "ab"⟩] [("g", 2)]).members "g" = [] then none
          else some (maxTextLen (membersOf (GSState.mk [⟨0, "g", "ab"⟩] [("g", 2)]).members "g"))) ∧
    text_padding_length_for_group (GSState.mk [⟨0, "g", "ab"⟩] [("g", 2)]) "g"
      ≤ text_padding_length_for_group (GSState.mk [⟨1, "g", "wxyz"⟩, ⟨0, "g", "ab"⟩] [("g", 4)]) "g" := by
  have h1 : Reachable ⟨[⟨0, "g", "ab"⟩], [("g", 2)]⟩ :=
    Reachable.new _ _ 0 "g" "ab" Reachable.init (by simp) (by decide)
  have h := C6_amended_max_recomputed ⟨[⟨0, "g", "ab"⟩], [("g", 2)]⟩ h1
  exact ⟨h.1 "g", h.2 1 "g" "wxyz" ⟨[⟨1, "g", "wxyz"⟩, ⟨0, "g", "ab"⟩], [("g", 4)]⟩
    (by decide) (by decide) "g"⟩

/-- C7: padding a tracked string whose group's registered width (possibly the `-1`
sentinel) is below its text length returns the text unchanged for all three
justifications, and no padding operation ever yields a string shorter than the
text — padding never truncates. -/
theorem C7_padding_never_truncates (s : GSState) (m : Member) :
    (text_padding_length s m < (m.text.length : Int) →
      ljust_text s m = m.text ∧ rjust_text s m = m.text ∧ center_text s m = m.text) ∧
    m.text.length ≤ (ljust_text s m).length ∧
    m.text.length ≤ (rjust_text s m).length ∧
    m.text.length ≤ (center_text s m).length := by
  refine ⟨fun h => ⟨pyLjust_of_lt _ _ h, pyRjust_of_lt _ _ h, pyCenter_of_lt _ _ h⟩, ?_, ?_, ?_⟩
  · show m.text.length ≤ (pyLjust m.text (text_padding_length s m)).length
    rw [length_pyLjust]
    exact le_max_left _ _
  · show m.text.length ≤ (pyRjust m.text (text_padding_length s m)).length
    rw [length_pyRjust]
    exact le_max_left _ _
  · show m.text.length ≤ (pyCenter m.text (text_padding_length s m)).length
    rw [length_pyCenter]
    exact le_max_left _ _

/-- C7 witness: a member with text "abc" in a group whose registered maximum is 1
(smaller than the text) is returned unchanged by all three padding operations and
never shortened. -/
theorem C7_padding_never_truncates_witness :
    ljust_text ⟨[], [("g", 1)]⟩ ⟨0, "g", "abc"⟩ = "abc" ∧
    rjust_text ⟨[], [("g", 1)]⟩ ⟨0, "g", "abc"⟩ = "abc" ∧
    center_text ⟨[], [("g", 1)]⟩ ⟨0, "g", "abc"⟩ = "abc" ∧
    ("abc" : String).length ≤ (ljust_text ⟨[], [("g", 1)]⟩ ⟨0, "g", "abc"⟩).length := by
  have h := C7_padding_never_truncates ⟨[], [("g", 1)]⟩ ⟨0, "g", "abc"⟩
  have hlt := h.1 (by decide)
  exact ⟨hlt.1, hlt.2.1, hlt.2.2, h.2.1⟩

/-- C8: in every reachable registry state, querying the maximum length of a group
with no live members returns the sentinel `-1` (the query is a total function of
the state — it cannot raise). -/
theorem C8_sentinel_for_empty_group (s : GSState) (hs : Reachable s) (g : String)
    (h : membersOf s.members g = []) :
    text_padding_length_for_group s g = -1 := by
  have hlk := (reachable_inv s hs).2 g
  rw [if_pos h] at hlk
  rw [tpl_unfold, hlk]
  rfl

/-- C8 witness: querying a group that was never registered in the initial state
returns `-1`. -/
theorem C8_sentinel_for_empty_group_witness :
    text_padding_length_for_group ⟨[], []⟩ "missing" = -1 :=
  C8_sentinel_for_empty_group ⟨[], []⟩ Reachable.init "missing" rfl

/-- processEntries_skip shows the entry loop ignores every entry of a directory at
level 1 or deeper when recursion is off: the `config.recursive or self.level < 1`
guard fails for each entry, so both content lists stay empty. -/
theorem processEntries_skip (cfg : Config) (lvl : Nat) (ts : List FSTree)
    (h : (cfg.recursive || decide (lvl < 1)) = false) :
    processEntries cfg lvl ts = .ok ([], []) := by
  have hcond : ¬ ((cfg.recursive || decide (lvl < 1)) = true) := by
    intro hc
    rw [hc] at h
    exact Bool.noConfusion h
  induction ts with
  | nil => simp only [processEntries]
  | cons t rest ih =>
      cases t with
      | file n =>
          simp only [processEntries]
          rw [if_neg hcond]
          exact ih
      | dir n err ch =>
          cases err <;>
            · simp only [processEntries]
              rw [if_neg hcond]
              exact ih

/-- processEntries_names shows the entry loop fills the two content lists with
exactly the visible entries of the listing, in enumeration order, whenever the
directory's level passes the walk guard: no reordering (the `_load_content` sort is
an unimplemented todo), no additions, no removals beyond the hidden and
subdirectories filters. -/
theorem processEntries_names (cfg : Config) (lvl : Nat) (ts : List FSTree)
    (hg : (cfg.recursive || decide (lvl < 1)) = true)
    (ds : List DirNode) (fs : List FileNode)
    (h : processEntries cfg lvl ts = .ok (ds, fs)) :
    ds.map DirNode.name = visibleDirNames cfg ts ∧
    fs.map FileNode.name = visibleFileNames cfg ts := by
  induction ts generalizing ds fs with
  | nil =>
      simp only [processEntries] at h
      injection h with h
      injection h with h1 h2
      subst h1
      subst h2
      simp [visibleDirNames, visibleFileNames]
  | cons t rest ih =>
      cases t with
      | file n =>
          simp only [processEntries] at h
          rw [if_pos hg] at h
          split at h
          · exact Except.noConfusion h
          · rename_i ds' fs' hrest
            obtain ⟨ihd, ihf⟩ := ih ds' fs' hrest
            split at h
            · rename_i hvis
              injection h with h
              injection h with h1 h2
              subst h1
              subst h2
              refine ⟨by rw [ihd]; simp only [visibleDirNames], ?_⟩
              simp only [List.map_cons, visibleFileNames]
              rw [if_pos hvis, ihf]
            · rename_i hvis
              injection h with h
              injection h with h1 h2
              subst h1
              subst h2
              refine ⟨by rw [ihd]; simp only [visibleDirNames], ?_⟩
              simp only [visibleFileNames]
              rw [if_neg hvis, ihf]
      | dir n err ch =>
          by_cases hsub : cfg.subdirectories = true
          · cases err with
            | osError =>
                simp only [processEntries] at h
                rw [if_pos hg, if_pos hsub] at h
                exact Except.noConfusion h
            | permission =>
                simp only [processEntries] at h
                rw [if_pos hg, if_pos hsub] at h
                split at h
                · exact Except.noConfusion h
                · rename_i ds' fs' hrest
                  obtain ⟨ihd, ihf⟩ := ih ds' fs' hrest
                  split at h
                  · rename_i hvis
                    injection h with h
                    injection h with h1 h2
                    subst h1
                    subst h2
                    constructor
                    · simp only [List.map_cons, visibleDirNames, hsub, Bool.true_and]
                      rw [if_pos hvis, ihd]
                      rfl
                    · simp only [visibleFileNames]
                      exact ihf
                  · rename_i hvis
                    injection h with h
                    injection h with h1 h2
                    subst h1
                    subst h2
                    constructor
                    · simp only [visibleDirNames, hsub, Bool.true_and]
                      rw [if_neg hvis, ihd]
                    · simp only [visibleFileNames]
                      exact ihf
            | scanOk =>
                simp only [processEntries] at h
                rw [if_pos hg, if_pos hsub] at h
                split at h
                · exact Except.noConfusion h
                · rename_i cds cfs hch
                  split at h
                  · exact Except.noConfusion h
                  · rename_i ds' fs' hrest
                    obtain ⟨ihd, ihf⟩ := ih ds' fs' hrest
                    split at h
                    · rename_i hvis
                      injection h with h
                      injection h with h1 h2
                      subst h1
                      subst h2
                      constructor
                      · simp only [List.map_cons, visibleDirNames, hsub, Bool.true_and]
                        rw [if_pos hvis, ihd]
                        rfl
                      · simp only [visibleFileNames]
                        exact ihf
                    · rename_i hvis
                      injection h with h
                      injection h with h1 h2
                      subst h1
                      subst h2
                      constructor
                      · simp only [visibleDirNames, hsub, Bool.true_and]
                        rw [if_neg hvis, ihd]
                      · simp only [visibleFileNames]
                        exact ihf
          · have hsf : cfg.subdirectories = false := by
              cases hb : cfg.subdirectories
              · rfl
              · exact absurd hb hsub
            cases err <;>
              · simp only [processEntries] at h
                rw [if_pos hg, if_neg hsub] at h
                obtain ⟨ihd, ihf⟩ := ih ds fs h
                constructor
                · rw [ihd]
                  simp [visibleDirNames, hsf]
                · rw [ihf]
                  simp [visibleFileNames]

/-- processEntries_nonrec_children shows that with recursion off, every directory
element the root-level loop constructs has empty content lists: its own loop runs
at level 1, where the walk guard fails for every entry. -/
theorem processEntries_nonrec_children (cfg : Config) (hr : cfg.recursive = false)
    (ts : List FSTree) (ds : List DirNode) (fs : List FileNode)
    (h : processEntries cfg 0 ts = .ok (ds, fs)) :
    ∀ d ∈ ds, d.files = [] ∧ d.dirs = [] := by
  have hg : (cfg.recursive || decide ((0 : Nat) < 1)) = true := by simp
  have hskip : ∀ ch : List FSTree, processEntries cfg 1 ch = .ok ([], []) := by
    intro ch
    apply processEntries_skip
    rw [hr]
    rfl
  induction ts generalizing ds fs with
  | nil =>
      simp only [processEntries] at h
      injection h with h
      injection h with h1 h2
      subst h1
      intro d hd
      cases hd
  | cons t rest ih =>
      cases t with
      | file n =>
          simp only [processEntries] at h
          rw [if_pos hg] at h
          split at h
          · exact Except.noConfusion h
          · rename_i ds' fs' hrest
            split at h <;>
            · injection h with h
              injection h with h1 h2
              subst h1
              exact ih ds' fs' hrest
      | dir n err ch =>
          by_cases hsub : cfg.subdirectories = true
          · cases err with
            | osError =>
                simp only [processEntries] at h
                rw [if_pos hg, if_pos hsub] at h
                exact Except.noConfusion h
            | permission =>
                simp only [processEntries] at h
                rw [if_pos hg, if_pos hsub] at h
                split at h
                · exact Except.noConfusion h
                · rename_i ds' fs' hrest
                  split at h
                  · injection h with h
                    injection h with h1 h2
                    subst h1
                    intro d hd
                    rcases List.mem_cons.mp hd with rfl | hd'
                    · exact ⟨rfl, rfl⟩
                    · exact ih ds' fs' hrest d hd'
                  · injection h with h
                    injection h with h1 h2
                    subst h1
                    exact ih ds' fs' hrest
            | scanOk =>
                simp only [processEntries] at h
                rw [if_pos hg, if_pos hsub] at h
                split at h
                · exact Except.noConfusion h
                · rename_i cds cfs hch
                  have hcc : (Except.ok (cds, cfs) : Except Unit (List DirNode × List FileNode))
                      = .ok ([], []) := hch.symm.trans (hskip ch)
                  injection hcc with hcc
                  injection hcc with hc1 hc2
                  subst hc1
                  subst hc2
                  split at h
                  · exact Except.noConfusion h
                  · rename_i ds' fs' hrest
                    split at h
                    · injection h with h
                      injection h with h1 h2
                      subst h1
                      intro d hd
                      rcases List.mem_cons.mp hd with rfl | hd'
                      · exact ⟨rfl, rfl⟩
                      · exact ih ds' fs' hrest d hd'
                    · injection h with h
                      injection h with h1 h2
                      subst h1
                      exact ih ds' fs' hrest
          · cases err <;>
              · simp only [processEntries] at h
                rw [if_pos hg, if_neg hsub] at h
                exact ih ds fs h

/-- noOsErr_file unfolds the no-OSError check over a file entry. -/
theorem noOsErr_file (n : String) (rest : List FSTree) :
    noOsErr (FSTree.file n :: rest) = noOsErr rest := by
  simp only [noOsErr]

/-- noOsErr_dir extracts the three conjuncts of the no-OSError check over a
directory entry. -/
theorem noOsErr_dir (n : String) (err : ScanErr) (ch rest : List FSTree)
    (h : noOsErr (FSTree.dir n err ch :: rest) = true) :
    err ≠ ScanErr.osError ∧ noOsErr ch = true ∧ noOsErr rest = true := by
  cases err with
  | osError =>
      simp only [noOsErr, Bool.false_and] at h
      exact Bool.noConfusion h
  | permission =>
      simp only [noOsErr, Bool.true_and, Bool.and_eq_true] at h
      exact ⟨by decide, h.1, h.2⟩
  | scanOk =>
      simp only [noOsErr, Bool.true_and, Bool.and_eq_true] at h
      exact ⟨by decide, h.1, h.2⟩

/-- guard_false_of_not_true converts the negated walk guard into a Bool equation. -/
theorem guard_false_of_not_true (b : Bool) (h : ¬ (b = true)) : b = false := by
  cases hb : b
  · rfl
  · exact absurd hb h

/-- processEntries_ok_of_noOsErr shows the walk of a filesystem containing no
non-permission OSError always completes: permission errors are caught per
directory and never abort the loop. -/
theorem processEntries_ok_of_noOsErr (cfg : Config) (lvl : Nat) (ts : List FSTree) :
    noOsErr ts = true → ∃ ds fs, processEntries cfg lvl ts = .ok (ds, fs) := by
  induction lvl, ts using processEntries.induct cfg with
  | case1 lvl =>
      intro hno
      exact ⟨[], [], by simp only [processEntries]⟩
  | case2 lvl n rest hg e heq ih =>
      intro hno
      rw [noOsErr_file] at hno
      obtain ⟨ds, fs, hok⟩ := ih hno
      rw [heq] at hok
      exact Except.noConfusion hok
  | case3 lvl n rest hg ds fs heq hvis ih =>
      intro hno
      refine ⟨ds, ⟨n, lvl + 1⟩ :: fs, ?_⟩
      simp only [processEntries]
      rw [if_pos hg, heq]
      exact if_pos hvis
  | case4 lvl n rest hg ds fs heq hvis ih =>
      intro hno
      refine ⟨ds, fs, ?_⟩
      simp only [processEntries]
      rw [if_pos hg, heq]
      exact if_neg hvis
  | case5 lvl n rest hg ih =>
      intro hno
      exact ⟨[], [], processEntries_skip cfg lvl _ (guard_false_of_not_true _ hg)⟩
  | case6 lvl n ch rest hg hsub =>
      intro hno
      have := (noOsErr_dir n ScanErr.osError ch rest hno).1
      exact absurd rfl this
  | case7 lvl n ch rest hg hsub e heq ih =>
      intro hno
      obtain ⟨-, -, hrest⟩ := noOsErr_dir n ScanErr.permission ch rest hno
      obtain ⟨ds, fs, hok⟩ := ih hrest
      rw [heq] at hok
      exact Except.noConfusion hok
  | case8 lvl n ch rest hg hsub ds fs heq hvis ih =>
      intro hno
      refine ⟨DirNode.mk n (lvl + 1) [] [] :: ds, fs, ?_⟩
      simp only [processEntries]
      rw [if_pos hg, if_pos hsub, heq]
      exact if_pos hvis
  | case9 lvl n ch rest hg hsub ds fs heq hvis ih =>
      intro hno
      refine ⟨ds, fs, ?_⟩
      simp only [processEntries]
      rw [if_pos hg, if_pos hsub, heq]
      exact if_neg hvis
  | case10 lvl n ch rest hg hsub e heq ihch =>
      intro hno
      obtain ⟨-, hch, -⟩ := noOsErr_dir n ScanErr.scanOk ch rest hno
      obtain ⟨ds, fs, hok⟩ := ihch hch
      rw [heq] at hok
      exact Except.noConfusion hok
  | case11 lvl n ch rest hg hsub cds cfs heqch e heq ihch ihrest =>
      intro hno
      obtain ⟨-, -, hrest⟩ := noOsErr_dir n ScanErr.scanOk ch rest hno
      obtain ⟨ds, fs, hok⟩ := ihrest hrest
      rw [heq] at hok
      exact Except.noConfusion hok
  | case12 lvl n ch rest hg hsub cds cfs heqch ds fs heqrest hvis ihch ihrest =>
      intro hno
      refine ⟨DirNode.mk n (lvl + 1) cfs cds :: ds, fs, ?_⟩
      simp only [processEntries]
      rw [if_pos hg, if_pos hsub, heqch]
      rw [heqrest]
      exact if_pos hvis
  | case13 lvl n ch rest hg hsub cds cfs heqch ds fs heqrest hvis ihch ihrest =>
      intro hno
      refine ⟨ds, fs, ?_⟩
      simp only [processEntries]
      rw [if_pos hg, if_pos hsub, heqch]
      rw [heqrest]
      exact if_neg hvis
  | case14 lvl n err ch rest hg hsub ih =>
      intro hno
      obtain ⟨-, -, hrest⟩ := noOsErr_dir n err ch rest hno
      obtain ⟨ds, fs, hok⟩ := ih hrest
      refine ⟨ds, fs, ?_⟩
      cases err <;>
        · simp only [processEntries]
          rw [if_pos hg, if_neg hsub]
          exact hok
  | case15 lvl n err ch rest hg ih =>
      intro hno
      exact ⟨[], [], processEntries_skip cfg lvl _ (guard_false_of_not_true _ hg)⟩

/-- C2: for every directory walked with the hidden flag off, no file element and no
directory element whose name starts with a dot appears in any populated content
list, at any depth of the built snapshot. -/
theorem C2_no_hidden_in_lists (cfg : Config) (hh : cfg.hidden = false) (lvl : Nat)
    (ts : List FSTree) :
    ∀ (ds : List DirNode) (fs : List FileNode),
    processEntries cfg lvl ts = .ok (ds, fs) →
    fs.all (fun f => !isHiddenName f.name) = true ∧ noHiddenNodes ds = true := by
  induction lvl, ts using processEntries.induct cfg with
  | case1 lvl =>
      intro ds fs h
      simp only [processEntries] at h
      injection h with h
      injection h with h1 h2
      subst h1
      subst h2
      exact ⟨rfl, by simp only [noHiddenNodes]⟩
  | case2 lvl n rest hg e heq ih =>
      intro ds fs h
      simp only [processEntries] at h
      rw [if_pos hg, heq] at h
      exact Except.noConfusion h
  | case3 lvl n rest hg ds' fs' heq hvis ih =>
      intro ds fs h
      simp only [processEntries] at h
      rw [if_pos hg, heq] at h
      have h' : (if (cfg.hidden || !isHiddenName n) = true
          then (Except.ok (ds', (⟨n, lvl + 1⟩ : FileNode) :: fs') :
            Except Unit (List DirNode × List FileNode))
          else .ok (ds', fs')) = .ok (ds, fs) := h
      rw [if_pos hvis] at h'
      injection h' with h'
      injection h' with h1 h2
      subst h1
      subst h2
      rw [hh, Bool.false_or] at hvis
      obtain ⟨ihf, ihd⟩ := ih ds' fs' heq
      exact ⟨by simp only [List.all_cons, Bool.and_eq_true]; exact ⟨hvis, ihf⟩, ihd⟩
  | case4 lvl n rest hg ds' fs' heq hvis ih =>
      intro ds fs h
      simp only [processEntries] at h
      rw [if_pos hg, heq] at h
      have h' : (if (cfg.hidden || !isHiddenName n) = true
          then (Except.ok (ds', (⟨n, lvl + 1⟩ : FileNode) :: fs') :
            Except Unit (List DirNode × List FileNode))
          else .ok (ds', fs')) = .ok (ds, fs) := h
      rw [if_neg hvis] at h'
      injection h' with h'
      injection h' with h1 h2
      subst h1
      subst h2
      exact ih ds' fs' heq
  | case5 lvl n rest hg ih =>
      intro ds fs h
      have hf : (cfg.recursive || decide (lvl < 1)) = false := guard_false_of_not_true _ hg
      have h0 := (processEntries_skip cfg lvl (FSTree.file n :: rest) hf).symm.trans h
      injection h0 with h0
      injection h0 with h1 h2
      subst h1
      subst h2
      exact ⟨rfl, by simp only [noHiddenNodes]⟩
  | case6 lvl n ch rest hg hsub =>
      intro ds fs h
      simp only [processEntries] at h
      rw [if_pos hg, if_pos hsub] at h
      exact Except.noConfusion h
  | case7 lvl n ch rest hg hsub e heq ih =>
      intro ds fs h
      simp only [processEntries] at h
      rw [if_pos hg, if_pos hsub, heq] at h
      exact Except.noConfusion h
  | case8 lvl n ch rest hg hsub ds' fs' heq hvis ih =>
      intro ds fs h
      simp only [processEntries] at h
      rw [if_pos hg, if_pos hsub, heq] at h
      have h' : (if (cfg.hidden || !isHiddenName n) = true
          then (Except.ok (DirNode.mk n (lvl + 1) [] [] :: ds', fs') :
            Except Unit (List DirNode × List FileNode))
          else .ok (ds', fs')) = .ok (ds, fs) := h
      rw [if_pos hvis] at h'
      injection h' with h'
      injection h' with h1 h2
      subst h1
      subst h2
      rw [hh, Bool.false_or] at hvis
      obtain ⟨ihf, ihd⟩ := ih ds' fs' heq
      refine ⟨ihf, ?_⟩
      simp [noHiddenNodes, hvis, ihd]
  | case9 lvl n ch rest hg hsub ds' fs' heq hvis ih =>
      intro ds fs h
      simp only [processEntries] at h
      rw [if_pos hg, if_pos hsub, heq] at h
      have h' : (if (cfg.hidden || !isHiddenName n) = true
          then (Except.ok (DirNode.mk n (lvl + 1) [] [] :: ds', fs') :
            Except Unit (List DirNode × List FileNode))
          else .ok (ds', fs')) = .ok (ds, fs) := h
      rw [if_neg hvis] at h'
      injection h' with h'
      injection h' with h1 h2
      subst h1
      subst h2
      exact ih ds' fs' heq
  | case10 lvl n ch rest hg hsub e heq ihch =>
      intro ds fs h
      simp only [processEntries] at h
      rw [if_pos hg, if_pos hsub, heq] at h
      exact Except.noConfusion h
  | case11 lvl n ch rest hg hsub cds cfs heqch e heq ihch ihrest =>
      intro ds fs h
      simp only [processEntries] at h
      rw [if_pos hg, if_pos hsub, heqch, heq] at h
      exact Except.noConfusion h
  | case12 lvl n ch rest hg hsub cds cfs heqch ds' fs' heqrest hvis ihch ihrest =>
      intro ds fs h
      simp only [processEntries] at h
      rw [if_pos hg, if_pos hsub, heqch, heqrest] at h
      have h' : (if (cfg.hidden || !isHiddenName n) = true
          then (Except.ok (DirNode.mk n (lvl + 1) cfs cds :: ds', fs') :
            Except Unit (List DirNode × List FileNode))
          else .ok (ds', fs')) = .ok (ds, fs) := h
      rw [if_pos hvis] at h'
      injection h' with h'
      injection h' with h1 h2
      subst h1
      subst h2
      rw [hh, Bool.false_or] at hvis
      obtain ⟨ihcf, ihcd⟩ := ihch cds cfs heqch
      obtain ⟨ihf, ihd⟩ := ihrest ds' fs' heqrest
      refine ⟨ihf, ?_⟩
      simp [noHiddenNodes, hvis, ihcf, ihcd, ihd]
  | case13 lvl n ch rest hg hsub cds cfs heqch ds' fs' heqrest hvis ihch ihrest =>
      intro ds fs h
      simp only [processEntries] at h
      rw [if_pos hg, if_pos hsub, heqch, heqrest] at h
      have h' : (if (cfg.hidden || !isHiddenName n) = true
          then (Except.ok (DirNode.mk n (lvl + 1) cfs cds :: ds', fs') :
            Except Unit (List DirNode × List FileNode))
          else .ok (ds', fs')) = .ok (ds, fs) := h
      rw [if_neg hvis] at h'
      injection h' with h'
      injection h' with h1 h2
      subst h1
      subst h2
      exact ihrest ds' fs' heqrest
  | case14 lvl n err ch rest hg hsub ih =>
      intro ds fs h
      cases err <;>
        · simp only [processEntries] at h
          rw [if_pos hg, if_neg hsub] at h
          exact ih ds fs h
  | case15 lvl n err ch rest hg ih =>
      intro ds fs h
      have hf : (cfg.recursive || decide (lvl < 1)) = false := guard_false_of_not_true _ hg
      have h0 := (processEntries_skip cfg lvl (FSTree.dir n err ch :: rest) hf).symm.trans h
      injection h0 with h0
      injection h0 with h1 h2
      subst h1
      subst h2
      exact ⟨rfl, by simp only [noHiddenNodes]⟩

/-- C2 witness: walking a listing that contains the hidden file ".secret" and the
hidden directory ".hid" with hidden excluded yields content lists with no
dot-prefixed name at any depth. -/
theorem C2_no_hidden_in_lists_witness :
    ([⟨"a.txt", 1⟩] : List FileNode).all (fun f => !isHiddenName f.name) = true ∧
    noHiddenNodes [DirNode.mk "sub" 1 [⟨"y", 2⟩] []] = true := by
  have h : processEntries (rootConfig true false false) 0
      [FSTree.file ".secret", FSTree.file "a.txt", FSTree.dir ".hid" ScanErr.scanOk [],
        FSTree.dir "sub" ScanErr.scanOk [FSTree.file ".x", FSTree.file "y"]]
      = .ok ([DirNode.mk "sub" 1 [⟨"y", 2⟩] []], [⟨"a.txt", 1⟩]) := by
    simp +decide [processEntries, rootConfig, Config.set_config, Config.new, isHiddenName]
  exact C2_no_hidden_in_lists (rootConfig true false false) (by decide) 0 _ _ _ h

/-- C3: with recursion disabled and subdirectories included, the walk at the root
level records exactly the root's visible immediate children — every subdirectory
appears as a node, but with both of its own content lists empty. -/
theorem C3_nonrecursive_root_children_only (cfg : Config) (ts : List FSTree)
    (ds : List DirNode) (fs : List FileNode)
    (hr : cfg.recursive = false) (hsub : cfg.subdirectories = true)
    (h : processEntries cfg 0 ts = .ok (ds, fs)) :
    ds.map DirNode.name = visibleDirNames cfg ts ∧
    fs.map FileNode.name = visibleFileNames cfg ts ∧
    ∀ d ∈ ds, d.files = [] ∧ d.dirs = [] := by
  have hg : (cfg.recursive || decide ((0 : Nat) < 1)) = true := by simp
  obtain ⟨h1, h2⟩ := processEntries_names cfg 0 ts hg ds fs h
  exact ⟨h1, h2, processEntries_nonrec_children cfg hr ts ds fs h⟩

/-- C3 witness: a non-recursive walk of a root containing `sub/b.log` and `a.txt`
lists `sub` (empty) and `a.txt`, and nothing below `sub`. -/
theorem C3_nonrecursive_root_children_only_witness :
    ([DirNode.mk "sub" 1 [] []].map DirNode.name
        = visibleDirNames (rootConfig false true false)
            [FSTree.dir "sub" ScanErr.scanOk [FSTree.file "b.log"], FSTree.file "a.txt"]) ∧
    (([⟨"a.txt", 1⟩] : List FileNode).map FileNode.name
        = visibleFileNames (rootConfig false true false)
            [FSTree.dir "sub" ScanErr.scanOk [FSTree.file "b.log"], FSTree.file "a.txt"]) ∧
    ∀ d ∈ [DirNode.mk "sub" 1 [] []], d.files = [] ∧ d.dirs = [] := by
  have h : processEntries (rootConfig false true false) 0
      [FSTree.dir "sub" ScanErr.scanOk [FSTree.file "b.log"], FSTree.file "a.txt"]
      = .ok ([DirNode.mk "sub" 1 [] []], [⟨"a.txt", 1⟩]) := by
    simp +decide [processEntries, rootConfig, Config.set_config, Config.new, isHiddenName]
  exact C3_nonrecursive_root_children_only (rootConfig false true false) _ _ _
    (by decide) (by decide) h

/-- C4 counterexample: a root whose subdirectory "bad" reports a non-permission
OSError from its listing makes the whole build fail — the error escapes the walk
instead of being recorded as an empty directory, refuting the claim that any
OS-level error is swallowed per directory. -/
theorem C4_counterexample :
    buildRoot true true false "root" ScanErr.scanOk [FSTree.dir "bad" ScanErr.osError []]
      = .error () := by
  simp +decide [buildRoot, loadContent, processEntries, rootConfig, Config.set_config,
    Config.new, isHiddenName]

/-- C4 (amended): a PermissionError during a directory's listing is caught — the
directory is recorded with empty content lists and the walk continues, so a
filesystem with no non-permission OSError always builds; but a different OSError
is not caught anywhere and propagates out of the walk (see the counterexample). -/
theorem C4_amended_permission_only (cfg : Config) (lvl : Nat) (name : String)
    (ch ts : List FSTree) (h : noOsErr ts = true) :
    loadContent cfg lvl name ScanErr.permission ch = .ok (DirNode.mk name lvl [] []) ∧
    loadContent cfg lvl name ScanErr.osError ch = .error () ∧
    ∃ ds fs, processEntries cfg lvl ts = .ok (ds, fs) :=
  ⟨rfl, rfl, processEntries_ok_of_noOsErr cfg lvl ts h⟩

/-- C4 amended witness: an unreadable (permission-denied) directory is recorded
empty, an OSError directory fails, and a walk over a permission-denied child plus
a file completes. -/
theorem C4_amended_permission_only_witness :
    loadContent (rootConfig true true false) 0 "root" ScanErr.permission [FSTree.file "a"]
      = .ok (DirNode.mk "root" 0 [] []) ∧
    loadContent (rootConfig true true false) 0 "root" ScanErr.osError [FSTree.file "a"]
      = .error () ∧
    ∃ ds fs, processEntries (rootConfig true true false) 0
      [FSTree.dir "p" ScanErr.permission [], FSTree.file "a"] = .ok (ds, fs) :=
  C4_amended_permission_only (rootConfig true true false) 0 "root" [FSTree.file "a"]
    [FSTree.dir "p" ScanErr.permission [], FSTree.file "a"] (by simp [noOsErr])

/-- lowerName is the case-insensitive comparison key of a name: its characters
lowercased. -/
def lowerName (n : String) : String := String.mk (n.data.map Char.toLower)

/-- charListLe is the lexicographic less-or-equal on character lists. -/
def charListLe : List Char → List Char → Bool
  | [], _ => true
  | _ :: _, [] => false
  | a :: as, b :: bs => a < b || (a = b && charListLe as bs)

/-- ciSorted checks that a list of names is case-insensitively nondecreasing:
every adjacent pair is in order under the lowercased keys. -/
def ciSorted : List String → Bool
  | [] => true
  | [_] => true
  | a :: b :: rest =>
      charListLe (lowerName a).data (lowerName b).data && ciSorted (b :: rest)

/-- C5 counterexample: enumerating subdirectories "b" then "A" leaves the
subdirectory list in enumeration order "b", "A", which is not case-insensitively
sorted — `_load_content` applies no sort at all (its sort step is a todo, and
`sort.py` is never invoked by the walk). -/
theorem C5_counterexample :
    processEntries (rootConfig true true false) 0
        [FSTree.dir "b" ScanErr.scanOk [], FSTree.dir "A" ScanErr.scanOk []]
      = .ok ([DirNode.mk "b" 1 [] [], DirNode.mk "A" 1 [] []], []) ∧
    ciSorted ([DirNode.mk "b" 1 [] [], DirNode.mk "A" 1 [] []].map DirNode.name) = false := by
  constructor
  · simp +decide [processEntries, rootConfig, Config.set_config, Config.new, isHiddenName]
  · decide

/-- C5 (amended): the subdirectory list of every scanned directory is exactly the
visible directory entries in filesystem enumeration order — the walk never reorders
them (no sort strategy is applied; sorting is an unimplemented todo). -/
theorem C5_amended_enumeration_order (cfg : Config) (lvl : Nat) (ts : List FSTree)
    (ds : List DirNode) (fs : List FileNode)
    (hg : (cfg.recursive || decide (lvl < 1)) = true)
    (h : processEntries cfg lvl ts = .ok (ds, fs)) :
    ds.map DirNode.name = visibleDirNames cfg ts :=
  (processEntries_names cfg lvl ts hg ds fs h).1

/-- C5 amended witness: the "b", "A" listing keeps its enumeration order. -/
theorem C5_amended_enumeration_order_witness :
    [DirNode.mk "b" 1 [] [], DirNode.mk "A" 1 [] []].map DirNode.name
      = visibleDirNames (rootConfig true true false)
          [FSTree.dir "b" ScanErr.scanOk [], FSTree.dir "A" ScanErr.scanOk []] := by
  have h : processEntries (rootConfig true true false) 0
      [FSTree.dir "b" ScanErr.scanOk [], FSTree.dir "A" ScanErr.scanOk []]
      = .ok ([DirNode.mk "b" 1 [] [], DirNode.mk "A" 1 [] []], []) := by
    simp +decide [processEntries, rootConfig, Config.set_config, Config.new, isHiddenName]
  exact C5_amended_enumeration_order (rootConfig true true false) 0 _ _ _ (by decide) h

/-- C9: `set_config` on an unfrozen configuration with all three arguments present
and recursive true stores subdirectories as true regardless of the passed value,
and consequently a root built with recursive true produces the same snapshot as if
subdirectories had been requested. -/
theorem C9_recursive_forces_subdirectories (c : Config) (hset : c.configIsSet = false)
    (s h : Bool) (name : String) (err : ScanErr) (ch : List FSTree) :
    (c.set_config (some true) (some s) (some h)).subdirectories = true ∧
    (rootConfig true s h).subdirectories = true ∧
    buildRoot true s h name err ch = buildRoot true true h name err ch := by
  have hc : rootConfig true s h = rootConfig true true h := by
    simp [rootConfig, Config.set_config, Config.new]
  refine ⟨?_, ?_, ?_⟩
  · simp [Config.set_config, hset]
  · simp [rootConfig, Config.set_config, Config.new]
  · simp only [buildRoot, hc]

/-- C9 witness: with recursive true and subdirectories passed as false, the stored
flag is true and the root build equals the subdirectories-true build. -/
theorem C9_recursive_forces_subdirectories_witness :
    ((Config.new.set_config (some true) (some false) (some false)).subdirectories = true) ∧
    (rootConfig true false false).subdirectories = true ∧
    buildRoot true false false "r" ScanErr.scanOk [] = buildRoot true true false "r" ScanErr.scanOk [] :=
  C9_recursive_forces_subdirectories Config.new rfl false false "r" ScanErr.scanOk []

/-- C10: the parent reference of a filesystem element is write-once — once a
parent has been assigned, a later assignment leaves the element (all of its
fields, the stored parent included) unchanged. -/
theorem C10_parent_write_once (e : FileSystemElementState) (p q : String)
    (h : e.parent = some q) : parent_setter e p = e := by
  unfold parent_setter
  rw [h]

/-- C10 witness: re-assigning a parent on an element whose parent is already set
leaves the element unchanged. -/
theorem C10_parent_write_once_witness :
    parent_setter (parent_setter (FileSystemElement_init "a.txt" 1) "root") "elsewhere"
      = parent_setter (FileSystemElement_init "a.txt" 1) "root" :=
  C10_parent_write_once (parent_setter (FileSystemElement_init "a.txt" 1) "root")
    "elsewhere" "root" rfl
